import Mathlib

/-!
# Verification of the osquery md (software RAID) tables subsystem

Shallow embedding of `osquery/tables/system/linux/md_tables.cpp`:
the mdstat text parser (`parseMDStat`, `parseMDDrive`), the disk state
stringifier (`getDiskStateStr`), the string trimming helper (`trimStr`)
and the slot reconciliation algorithm (`getDrivesForArray`).

C++ strings are modelled as `List Char`; C ints as `Int`; fallible
operations (ioctl failures) as `Option`; thrown exceptions and
out-of-bounds vector accesses as explicit error constructors.
-/

namespace MDTables

/-- C++ `std::string::find_first_not_of(c)`: index of the first character
different from `c`, `none` for `npos`. -/
def find_first_not_of : List Char → Char → Option Nat
  | [], _ => none
  | x :: xs, c => if x = c then (find_first_not_of xs c).map (· + 1) else some 0

/-- C++ `std::string::find_last_not_of(c)`: index of the last character
different from `c`, `none` for `npos`. -/
def find_last_not_of (s : List Char) (c : Char) : Option Nat :=
  match find_first_not_of s.reverse c with
  | none => none
  | some k => some (s.length - 1 - k)

/-- Embeds `trimStr` (md_tables.cpp:95-108): removes the prefixing and
suffixing occurrences of character `c`.  The source first erases the tail
(`erase(last + 1, npos)`, guarded by `last < s.size() - 1`), then the head
(`erase(0, first)`), and returns early, with the string unchanged, when
every character equals `c`. -/
def trimStr (s : List Char) (c : Char) : List Char :=
  match find_first_not_of s c with
  | none => s
  | some first =>
    let s1 := match find_last_not_of s c with
      | none => s
      | some last => if last < s.length - 1 then s.take (last + 1) else s
    s1.drop first

/-- `trimStr` applied to each element of a vector (md_tables.cpp:117-121). -/
def trimStrList (strs : List (List Char)) (c : Char) : List (List Char) :=
  strs.map (fun s => trimStr s c)

-- ### Characterisation of the find primitives

theorem find_first_not_of_eq_none {s : List Char} {c : Char} :
    find_first_not_of s c = none ↔ ∀ x ∈ s, x = c := by
  induction s with
  | nil => simp [find_first_not_of]
  | cons x xs ih =>
    by_cases hx : x = c
    · simp [find_first_not_of, hx, Option.map_eq_none', ih]
    · simp [find_first_not_of, hx]

theorem find_first_not_of_eq_takeWhile {s : List Char} {c : Char}
    (h : ¬ ∀ x ∈ s, x = c) :
    find_first_not_of s c
      = some (s.takeWhile (fun x => decide (x = c))).length := by
  induction s with
  | nil => simp at h
  | cons x xs ih =>
    by_cases hx : x = c
    · have hxs : ¬ ∀ y ∈ xs, y = c := by
        intro hall
        exact h (by
          intro y hy
          rcases List.mem_cons.mp hy with hy | hy
          · exact hy ▸ hx
          · exact hall y hy)
      simp [find_first_not_of, hx, ih hxs, List.takeWhile_cons]
    · simp [find_first_not_of, hx, List.takeWhile_cons]

theorem drop_takeWhile_length (p : Char → Bool) (s : List Char) :
    s.drop (s.takeWhile p).length = s.dropWhile p := by
  induction s with
  | nil => rfl
  | cons x xs ih =>
    by_cases hx : p x
    · simp [List.takeWhile_cons, List.dropWhile_cons, hx, ih]
    · simp [List.takeWhile_cons, List.dropWhile_cons, hx]

theorem takeWhile_all_of_length_eq {p : Char → Bool} {l : List Char}
    (h : (l.takeWhile p).length = l.length) : ∀ x ∈ l, p x := by
  have := (l.takeWhile_sublist p).eq_of_length h
  intro x hx
  exact List.mem_takeWhile_imp (this ▸ hx)

/-- When some character differs from `c`, trimming equals dropping the
maximal run of `c` at both ends. -/
theorem trimStr_eq_dropWhile {s : List Char} {c : Char} (h : ¬ ∀ x ∈ s, x = c) :
    trimStr s c
      = ((s.dropWhile (fun x => decide (x = c))).reverse.dropWhile
          (fun x => decide (x = c))).reverse := by
  set p : Char → Bool := fun x => decide (x = c) with hp
  have hrev : ¬ ∀ x ∈ s.reverse, x = c := by
    intro hall; exact h (fun x hx => hall x (List.mem_reverse.mpr hx))
  have hf := find_first_not_of_eq_takeWhile h
  have hg := find_first_not_of_eq_takeWhile hrev
  set f := (s.takeWhile p).length with hfdef
  set g := (s.reverse.takeWhile p).length with hgdef
  set u := s.dropWhile p with hudef
  have hsu : s.takeWhile p ++ u = s := List.takeWhile_append_dropWhile p s
  have hlen : f + u.length = s.length := by
    conv_rhs => rw [← hsu]
    simp [hfdef]
  have hune : u ≠ [] := by
    intro hnil
    apply h
    intro x hx
    have := List.dropWhile_eq_nil_iff.mp (hudef ▸ hnil) x hx
    exact of_decide_eq_true this
  -- the reversed string's takeWhile stops within u.reverse
  have hcond : ¬ (u.reverse.takeWhile p).length = u.reverse.length := by
    intro heq
    have hall := takeWhile_all_of_length_eq heq
    obtain ⟨y, ys, huy⟩ := List.exists_cons_of_ne_nil hune
    have hhead := List.head?_dropWhile_not p s
    rw [← hudef, huy] at hhead
    simp only [List.head?_cons] at hhead
    have : p y = true := hall y (by rw [huy]; simp)
    rw [hhead] at this
    exact Bool.false_ne_true this
  have hgrev : s.reverse.takeWhile p = u.reverse.takeWhile p := by
    have : s.reverse = u.reverse ++ (s.takeWhile p).reverse := by
      rw [← List.reverse_append, hsu]
    rw [this, List.takeWhile_append, if_neg hcond]
  have hgu : g = (u.reverse.takeWhile p).length := by rw [hgdef, hgrev]
  have hglt : g < u.length := by
    rw [hgu]
    have hle : (u.reverse.takeWhile p).length ≤ u.reverse.length :=
      (u.reverse.takeWhile_sublist p).length_le
    have hne := hcond
    rw [← hgu] at hne ⊢
    rw [hgu] at hne ⊢
    simp only [List.length_reverse] at hle hne ⊢
    omega
  have hglen : g < s.length := by omega
  -- compute the two erase steps
  unfold trimStr
  rw [hf, find_last_not_of, hg]
  have hbranch :
      (if s.length - 1 - g < s.length - 1 then s.take (s.length - 1 - g + 1) else s)
        = s.take (s.length - g) := by
    by_cases hc2 : s.length - 1 - g < s.length - 1
    · have : s.length - 1 - g + 1 = s.length - g := by omega
      rw [if_pos hc2, this]
    · have hg0 : g = 0 := by omega
      rw [if_neg hc2, hg0, Nat.sub_zero, List.take_length]
  simp only [hbranch]
  rw [List.drop_take]
  have hd : List.drop f s = u := by
    rw [hfdef, drop_takeWhile_length, ← hudef]
  rw [hd]
  have harith : s.length - g - f = u.length - g := by omega
  rw [harith]
  have htake : u.take (u.length - g) = (u.reverse.drop g).reverse := by
    rw [List.drop_reverse, List.reverse_reverse]
  rw [htake, hgu, drop_takeWhile_length]

/-- The trimmed string (in the non-degenerate case) is nonempty and has no
`c` at either end. -/
theorem trimStr_shape {s : List Char} {c : Char} (h : ¬ ∀ x ∈ s, x = c) :
    trimStr s c ≠ []
      ∧ (∀ x, (trimStr s c).head? = some x → x ≠ c)
      ∧ (∀ x, (trimStr s c).getLast? = some x → x ≠ c) := by
  set p : Char → Bool := fun x => decide (x = c) with hp
  set u := s.dropWhile p with hudef
  set w := u.reverse.dropWhile p with hwdef
  have htrim : trimStr s c = w.reverse := trimStr_eq_dropWhile h
  have hune : u ≠ [] := by
    intro hnil
    apply h
    intro x hx
    have := List.dropWhile_eq_nil_iff.mp (hudef ▸ hnil) x hx
    exact of_decide_eq_true this
  obtain ⟨y, ys, huy⟩ := List.exists_cons_of_ne_nil hune
  have hheadu : p y = false := by
    have hhead := List.head?_dropWhile_not p s
    rw [← hudef, huy] at hhead
    simpa using hhead
  have hyrev : y ∈ u.reverse := by rw [huy]; simp
  have hwne : w ≠ [] := by
    intro hnil
    have := List.dropWhile_eq_nil_iff.mp (hwdef ▸ hnil) y hyrev
    rw [hheadu] at this
    exact Bool.false_ne_true this
  refine ⟨by simp [htrim, hwne], ?_, ?_⟩
  · -- head of the result is the last of w, i.e. the last of u.reverse = head of u
    intro x hx
    rw [htrim] at hx
    rw [List.head?_reverse] at hx
    obtain ⟨t, ht⟩ := u.reverse.dropWhile_suffix p
    rw [← hwdef] at ht
    have : u.reverse.getLast? = w.getLast? := by
      rw [← ht]
      exact List.getLast?_append_of_ne_nil t hwne
    rw [← this] at hx
    rw [List.getLast?_reverse, huy] at hx
    simp only [List.head?_cons, Option.some_inj] at hx
    subst hx
    intro hxc
    rw [hp] at hheadu
    simp [hxc] at hheadu
  · intro x hx
    rw [htrim, List.getLast?_reverse] at hx
    have hhead := List.head?_dropWhile_not p u.reverse
    rw [← hwdef, hx] at hhead
    intro hxc
    rw [hp] at hhead
    simp [hxc] at hhead

/-- A nonempty string with no `c` at either end is a fixed point of `trimStr`. -/
theorem trimStr_fixed {r : List Char} {c : Char} (hne : r ≠ [])
    (hhead : ∀ x, r.head? = some x → x ≠ c)
    (hlast : ∀ x, r.getLast? = some x → x ≠ c) :
    trimStr r c = r := by
  obtain ⟨y, ys, hry⟩ := List.exists_cons_of_ne_nil hne
  have hy : y ≠ c := hhead y (by rw [hry]; rfl)
  have hfirst : find_first_not_of r c = some 0 := by
    rw [hry]
    simp [find_first_not_of, hy]
  have hrevne : r.reverse ≠ [] := by simp [hne]
  obtain ⟨z, zs, hrz⟩ := List.exists_cons_of_ne_nil hrevne
  have hz : z ≠ c := by
    apply hlast
    rw [← List.head?_reverse, hrz]
    rfl
  have hlastidx : find_last_not_of r c = some (r.length - 1) := by
    unfold find_last_not_of
    rw [hrz]
    simp [find_first_not_of, hz]
  unfold trimStr
  rw [hfirst, hlastidx]
  simp

/-- CLAIM C10: `trimStr` is idempotent, and a string consisting entirely of
the trim character is returned unchanged (the early `npos` return), not
emptied. -/
theorem trimStr_idempotent_and_allc (s : List Char) (c : Char) :
    trimStr (trimStr s c) c = trimStr s c
      ∧ ((∀ x ∈ s, x = c) → trimStr s c = s) := by
  constructor
  · by_cases h : ∀ x ∈ s, x = c
    · have h1 : trimStr s c = s := by
        unfold trimStr
        rw [find_first_not_of_eq_none.mpr h]
      rw [h1]
      exact h1
    · obtain ⟨hne, hhead, hlast⟩ := trimStr_shape h
      exact trimStr_fixed hne hhead hlast
  · intro h
    unfold trimStr
    rw [find_first_not_of_eq_none.mpr h]

/-- Witness for C10 at a concrete input: a string of only the trim
character is left unchanged. -/
theorem trimStr_idempotent_and_allc_witness :
    trimStr ['c', 'c', 'c'] 'c' = ['c', 'c', 'c'] :=
  (trimStr_idempotent_and_allc ['c', 'c', 'c'] 'c').2 (by decide)

-- ### Disk state stringification (md_tables.cpp:236-281)

/-- Disk state bit positions, from the system header `<linux/raid/md_p.h>`. -/
def MD_DISK_FAULTY : Nat := 0

def MD_DISK_ACTIVE : Nat := 1

def MD_DISK_SYNC : Nat := 2

def MD_DISK_REMOVED : Nat := 3

def MD_DISK_CLUSTER_ADD : Nat := 4

def MD_DISK_CANDIDATE : Nat := 5

def MD_DISK_WRITEMOSTLY : Nat := 9

def MD_DISK_FAILFAST : Nat := 10

def MD_DISK_JOURNAL : Nat := 18

/-- `(1 << k) & state`, nonzero test; `1 << k` is `2 ^ k` on a C `int`
for the bit positions in play. -/
def bitTest (k : Nat) (state : Int) : Bool := Int.land (2 ^ k) state ≠ 0

/-- Embeds `getDiskStateStr` (md_tables.cpp:236-281).  A state of exactly 0
is special-cased to "recovering"; otherwise flag names are appended in the
source's fixed order and the result is trimmed.  All platform-conditional
flags (`#ifdef` blocks) are taken as defined, the fullest build.  Note the
CLUSTER_ADD branch reproduces the source exactly: it tests
`(1 << MD_DISK_CLUSTER_ADD) & 1` — against the constant `1`, not `state`
(md_tables.cpp:275). -/
def getDiskStateStr (state : Int) : List Char :=
  if state = 0 then "recovering".toList
  else
    let s : List Char := []
    let s := if bitTest MD_DISK_FAULTY state then s ++ "faulty ".toList else s
    let s := if bitTest MD_DISK_ACTIVE state then s ++ "active ".toList else s
    let s := if bitTest MD_DISK_SYNC state then s ++ "sync ".toList else s
    let s := if bitTest MD_DISK_REMOVED state then s ++ "removed ".toList else s
    let s := if bitTest MD_DISK_WRITEMOSTLY state then s ++ "writemostly ".toList else s
    let s := if bitTest MD_DISK_FAILFAST state then s ++ "failfast ".toList else s
    let s := if bitTest MD_DISK_JOURNAL state then s ++ "journal ".toList else s
    let s := if bitTest MD_DISK_CANDIDATE state then s ++ "spare ".toList else s
    let s := if Int.land (2 ^ MD_DISK_CLUSTER_ADD) 1 ≠ 0 then s ++ "clusteradd ".toList else s
    trimStr s ' '

/-- CLAIM C4 (code bug): with only the CLUSTER_ADD bit set (state 16) the
code emits the empty string, never "clusteradd", because the source tests
`(1 << MD_DISK_CLUSTER_ADD) & 1` instead of `... & state`; the ordinary
flags behave as the claim describes. -/
theorem getDiskStateStr_clusteradd_never_emitted :
    getDiskStateStr (2 ^ MD_DISK_CLUSTER_ADD) = []
      ∧ getDiskStateStr 6 = "active sync".toList
      ∧ getDiskStateStr 1 = "faulty".toList
      ∧ getDiskStateStr 0 = "recovering".toList := by
  refine ⟨?_, ?_, ?_, ?_⟩ <;> decide

-- ### Slot reconciliation (md_tables.cpp:474-557)

/-- `MD_SB_DISKS` from the system header `<linux/raid/md_p.h>`: the number
of on-disk superblock descriptor slots scanned by `getDrivesForArray`. -/
def MD_SB_DISKS : Nat := 27

/-- The `mdu_disk_info_t` fields read after a successful GET_DISK_INFO
ioctl; the `number` field is the queried index itself and is carried
separately. -/
structure DiskInfo where
  raid_disk : Int
  state : Int
  major : Int
  minor : Int
deriving DecidableEq

/-- One output row of the md_drives table.  The source stores the slot as
the decimal string `std::to_string(slot)` in the `Row` map and re-reads it
with `std::stoi`; since the two are mutually inverse on `int`, the slot is
modelled directly as the integer. -/
structure DriveRow where
  md_device_name : List Char
  drive_name : List Char
  state : List Char
  slot : Int
deriving DecidableEq, Inhabited

/-- The environment one invocation of `getDrivesForArray` observes: the
result of `getPathByDevName` for the array (`""` = the failure sentinel),
of the GET_ARRAY_INFO ioctl (`none` = failure, `some n` = `raid_disks`),
the per-number GET_DISK_INFO outcomes (`none` = ioctl failure), and the
udev device-name resolution `getDevName`. -/
structure MDEnv where
  path : List Char
  arrayInfo : Option Nat
  diskInfo : Nat → Option DiskInfo
  devName : Int → Int → List Char

/-- Row construction for one live disk (md_tables.cpp:497-514): the slot
is first set to the kernel-reported `raid_disk` and then overwritten with
the queried number when `raid_disk < 0 && number < raid_disks`. -/
def diskRow (arrayName : List Char) (env : MDEnv) (raidDisks : Nat)
    (number : Nat) (disk : DiskInfo) : DriveRow :=
  let r : DriveRow :=
    { md_device_name := arrayName
      drive_name := env.devName disk.major disk.minor
      state := getDiskStateStr disk.state
      slot := disk.raid_disk }
  if disk.raid_disk < 0 ∧ (number : Int) < (raidDisks : Int) then
    { r with slot := (number : Int) }
  else r

/-- The scan over all `MD_SB_DISKS` descriptor numbers
(md_tables.cpp:489-516): failed queries are skipped, and a row is pushed
only for disks with a positive major device number. -/
def phase1 (arrayName : List Char) (env : MDEnv) (raidDisks : Nat) :
    List DriveRow :=
  (List.range MD_SB_DISKS).foldl
    (fun temp i =>
      match env.diskInfo i with
      | none => temp
      | some disk =>
        if 0 < disk.major then temp ++ [diskRow arrayName env raidDisks i disk]
        else temp)
    []

/-- The inner scan of the reconciliation loop (md_tables.cpp:523-533):
walks `temp` with index `i`, setting `found` when a row carries `slot` and
remembering in `softRemoved` the index of the last row whose slot is still
negative. -/
def scanSlotGo (slot : Int) : Nat → List DriveRow → Bool × Int → Bool × Int
  | _, [], acc => acc
  | i, r :: rest, (found, soft) =>
    if r.slot = slot then scanSlotGo slot (i + 1) rest (true, soft)
    else if r.slot < 0 then scanSlotGo slot (i + 1) rest (found, (i : Int))
    else scanSlotGo slot (i + 1) rest (found, soft)

def scanSlot (temp : List DriveRow) (slot : Int) : Bool × Int :=
  scanSlotGo slot 0 temp (false, -1)

/-- `temp[j]["slot"] = std::to_string(slot)` (md_tables.cpp:541). -/
def setSlotAt : List DriveRow → Nat → Int → List DriveRow
  | [], _, _ => []
  | r :: rest, 0, s => { r with slot := s } :: rest
  | r :: rest, j + 1, s => r :: setSlotAt rest j s

/-- The synthesized row for a fully removed slot (md_tables.cpp:544-549). -/
def placeholderRow (arrayName : List Char) (slot : Int) : DriveRow :=
  { md_device_name := arrayName
    drive_name := "unknown".toList
    state := "removed".toList
    slot := slot }

/-- One iteration of the reconciliation loop body (md_tables.cpp:519-553)
for logical slot `slot`. -/
def phase2step (arrayName : List Char) (temp : List DriveRow) (slot : Int) :
    List DriveRow :=
  let fs := scanSlot temp slot
  if fs.1 = false then
    if fs.2 > -1 then setSlotAt temp fs.2.toNat slot
    else temp ++ [placeholderRow arrayName slot]
  else temp

/-- The reconciliation loop over logical slots `0 .. raid_disks - 1`. -/
def phase2 (arrayName : List Char) (raidDisks : Nat)
    (temp : List DriveRow) : List DriveRow :=
  (List.range raidDisks).foldl
    (fun t (s : Nat) => phase2step arrayName t (s : Int)) temp

/-- Embeds `getDrivesForArray` (md_tables.cpp:474-557): an empty device
path or a failed GET_ARRAY_INFO produces no rows; otherwise the scan and
the reconciliation run and `temp` is appended to the caller's `data`. -/
def getDrivesForArray (arrayName : List Char) (env : MDEnv)
    (data : List DriveRow) : List DriveRow :=
  if env.path = [] then data
  else
    match env.arrayInfo with
    | none => data
    | some raidDisks =>
      data ++ phase2 arrayName raidDisks (phase1 arrayName env raidDisks)

-- Sanity check against the unit test `all_drives_healthy`
-- (md_tests.cpp:101-160): six active+sync disks at confirmed slots.
def healthyEnv : MDEnv :=
  { path := "/dev/md0".toList
    arrayInfo := some 6
    diskInfo := fun i =>
      if i < 6 then some { raid_disk := (i : Int), state := 6,
                           major := (i : Int) + 5, minor := (i : Int) + 10 }
      else some { raid_disk := -1, state := 8, major := 0, minor := 0 }
    devName := fun maj _ => "/dev/sda".toList ++ (Int.sub maj 5).natAbs.repr.toList }

example :
    getDrivesForArray "md0".toList healthyEnv []
      = (List.range 6).map (fun i =>
          { md_device_name := "md0".toList
            drive_name := "/dev/sda".toList ++ i.repr.toList
            state := "active sync".toList
            slot := (i : Int) }) := by decide

-- Sanity check against the unit test `scattered_faulty_and_removed`
-- (md_tests.cpp:460-517): exercises the last-seen-wins reassignment.
def scatteredEnv : MDEnv :=
  { path := "/dev/md0".toList
    arrayInfo := some 6
    diskInfo := fun i =>
      if i = 1 then some { raid_disk := 1, state := 6, major := 5, minor := 6 }
      else if i = 3 then some { raid_disk := 3, state := 6, major := 7, minor := 8 }
      else if i = 5 then some { raid_disk := 5, state := 6, major := 9, minor := 10 }
      else if i = 9 then some { raid_disk := -1, state := 1, major := 13, minor := 14 }
      else if i = 17 then some { raid_disk := -1, state := 1, major := 15, minor := 16 }
      else some { raid_disk := -1, state := 8, major := 0, minor := 0 }
    devName := fun maj _ =>
      if maj = 13 then "/dev/sda9".toList
      else if maj = 15 then "/dev/sda17".toList
      else "/dev/sdaX".toList }

example :
    (getDrivesForArray "md0".toList scatteredEnv []).map
        (fun r => (r.drive_name, r.state, r.slot))
      = [("/dev/sdaX".toList, "active sync".toList, 1),
         ("/dev/sdaX".toList, "active sync".toList, 3),
         ("/dev/sdaX".toList, "active sync".toList, 5),
         ("/dev/sda9".toList, "faulty".toList, 2),
         ("/dev/sda17".toList, "faulty".toList, 0),
         ("unknown".toList, "removed".toList, 4)] := by decide

/-- CLAIM C6: for a successfully queried live disk (positive major), the
provisional slot is the kernel-reported `raid_disk` when non-negative;
when `raid_disk` is negative and the queried number is below the array's
disk count the number is used; otherwise the row keeps its negative
kernel slot and remains a reassignment candidate. -/
theorem diskRow_slot_spec (a : List Char) (env : MDEnv) (raidDisks number : Nat)
    (d : DiskInfo) :
    (0 ≤ d.raid_disk → (diskRow a env raidDisks number d).slot = d.raid_disk)
      ∧ (d.raid_disk < 0 → (number : Int) < (raidDisks : Int) →
          (diskRow a env raidDisks number d).slot = (number : Int))
      ∧ (d.raid_disk < 0 → ¬ (number : Int) < (raidDisks : Int) →
          (diskRow a env raidDisks number d).slot = d.raid_disk
            ∧ (diskRow a env raidDisks number d).slot < 0) := by
  unfold diskRow
  refine ⟨?_, ?_, ?_⟩
  · intro h0
    rw [if_neg]
    intro ⟨hneg, _⟩
    omega
  · intro hneg hlt
    rw [if_pos ⟨hneg, hlt⟩]
  · intro hneg hge
    rw [if_neg]
    · exact ⟨rfl, hneg⟩
    · intro ⟨_, hlt⟩
      exact hge hlt

/-- Witness for C6: a disk with negative reported slot and queried number
2 below a disk count of 6 gets provisional slot 2. -/
theorem diskRow_slot_spec_witness :
    (diskRow "md0".toList healthyEnv 6 2
        { raid_disk := -1, state := 1, major := 5, minor := 6 }).slot = 2 :=
  (diskRow_slot_spec "md0".toList healthyEnv 6 2
      { raid_disk := -1, state := 1, major := 5, minor := 6 }).2.1
    (by decide) (by decide)

/-- CLAIM C7: an empty device path (the `getPathByDevName` sentinel) or a
failed GET_ARRAY_INFO ioctl makes `getDrivesForArray` leave the caller's
accumulated rows untouched: zero rows for the array, siblings unaffected,
and (being a total function) no exception. -/
theorem getDrivesForArray_failure_no_rows (a : List Char) (env : MDEnv)
    (data : List DriveRow) (h : env.path = [] ∨ env.arrayInfo = none) :
    getDrivesForArray a env data = data := by
  unfold getDrivesForArray
  rcases h with h | h
  · rw [if_pos h]
  · by_cases hp : env.path = []
    · rw [if_pos hp]
    · rw [if_neg hp, h]

/-- Witness for C7: the empty-path sentinel yields zero appended rows. -/
theorem getDrivesForArray_failure_no_rows_witness :
    getDrivesForArray "md0".toList
        { path := [], arrayInfo := some 6, diskInfo := fun _ => none,
          devName := fun _ _ => [] } [] = [] :=
  getDrivesForArray_failure_no_rows "md0".toList
    { path := [], arrayInfo := some 6, diskInfo := fun _ => none,
      devName := fun _ _ => [] } [] (Or.inl rfl)

-- The environment of the unit test `some_faulty_some_removed`
-- (md_tests.cpp:391-454): six raid disks, but seven descriptors report a
-- live device, two of them resolving to slot 0.
def dupSlotEnv : MDEnv :=
  { path := "/dev/md0".toList
    arrayInfo := some 6
    diskInfo := fun i =>
      if i = 0 then some { raid_disk := -1, state := 1, major := 5, minor := 6 }
      else if i = 1 then some { raid_disk := 1, state := 6, major := 5, minor := 6 }
      else if i = 3 then some { raid_disk := 3, state := 6, major := 7, minor := 8 }
      else if i = 4 then some { raid_disk := 4, state := 6, major := 5, minor := 6 }
      else if i = 5 then some { raid_disk := -1, state := 1, major := 9, minor := 10 }
      else if i = 6 then some { raid_disk := 0, state := 6, major := 11, minor := 12 }
      else some { raid_disk := -1, state := 8, major := 0, minor := 0 }
    devName := fun _ _ => "/dev/sdaX".toList }

/-- COUNTEREXAMPLE to CLAIM C1 (mirrors the source's own unit test
`some_faulty_some_removed`): an array with `raid_disks = 6` for which
`getDrivesForArray` appends SEVEN rows, with slot 0 occurring twice —
no ambiguous row is ever pending, yet the output is neither exactly N
rows nor a permutation of [0, N). -/
theorem getDrivesForArray_seven_rows_for_six_disks :
    (getDrivesForArray "md0".toList dupSlotEnv []).length = 7
      ∧ (getDrivesForArray "md0".toList dupSlotEnv []).map (fun r => r.slot)
          = [0, 1, 3, 4, 5, 0, 2] := by
  constructor
  · decide
  · decide

-- ### Characterisation of the reconciliation scan

/-- Index of the last row whose slot is still negative (the last
"ambiguous" row in scan order), the value `softRemoved` tracks. -/
def lastNeg : List DriveRow → Option Nat
  | [] => none
  | r :: rest =>
    match lastNeg rest with
    | some j => some (j + 1)
    | none => if r.slot < 0 then some 0 else none

theorem scanSlotGo_fst (s : Int) (l : List DriveRow) :
    ∀ (i : Nat) (found : Bool) (soft : Int),
      (scanSlotGo s i l (found, soft)).1
        = (found || l.any (fun r => decide (r.slot = s))) := by
  induction l with
  | nil => intro i found soft; simp [scanSlotGo]
  | cons r rest ih =>
    intro i found soft
    by_cases h1 : r.slot = s
    · rw [scanSlotGo, if_pos h1, ih]
      simp [h1]
    · by_cases h2 : r.slot < 0
      · rw [scanSlotGo, if_neg h1, if_pos h2, ih]
        simp [h1]
      · rw [scanSlotGo, if_neg h1, if_neg h2, ih]
        simp [h1]

theorem lastNeg_cons (r : DriveRow) (rest : List DriveRow) :
    lastNeg (r :: rest)
      = match lastNeg rest with
        | some j => some (j + 1)
        | none => if r.slot < 0 then some 0 else none := rfl

theorem scanSlotGo_snd {s : Int} (hs : 0 ≤ s) (l : List DriveRow) :
    ∀ (i : Nat) (found : Bool) (soft : Int),
      (scanSlotGo s i l (found, soft)).2
        = match lastNeg l with
          | some j => ((i : Int) + (j : Int))
          | none => soft := by
  induction l with
  | nil => intro i found soft; simp [scanSlotGo, lastNeg]
  | cons r rest ih =>
    intro i found soft
    by_cases h1 : r.slot = s
    · have hnn : ¬ r.slot < 0 := by omega
      rw [scanSlotGo, if_pos h1, ih, lastNeg_cons]
      cases hrest : lastNeg rest with
      | some j => simp only [hrest]; push_cast; ring
      | none => simp only [hrest]; rw [if_neg hnn]
    · by_cases h2 : r.slot < 0
      · rw [scanSlotGo, if_neg h1, if_pos h2, ih, lastNeg_cons]
        cases hrest : lastNeg rest with
        | some j => simp only [hrest]; push_cast; ring
        | none => simp only [hrest]; rw [if_pos h2]; simp
      · rw [scanSlotGo, if_neg h1, if_neg h2, ih, lastNeg_cons]
        cases hrest : lastNeg rest with
        | some j => simp only [hrest]; push_cast; ring
        | none => simp only [hrest]; rw [if_neg h2]

theorem scanSlot_fst (temp : List DriveRow) (s : Int) :
    (scanSlot temp s).1 = temp.any (fun r => decide (r.slot = s)) := by
  rw [scanSlot, scanSlotGo_fst]
  simp

theorem scanSlot_snd {s : Int} (hs : 0 ≤ s) (temp : List DriveRow) :
    (scanSlot temp s).2
      = match lastNeg temp with
        | some j => (j : Int)
        | none => -1 := by
  rw [scanSlot, scanSlotGo_snd hs]
  cases lastNeg temp <;> simp

theorem lastNeg_none_iff {l : List DriveRow} :
    lastNeg l = none ↔ ∀ r ∈ l, ¬ r.slot < 0 := by
  induction l with
  | nil => simp [lastNeg]
  | cons r rest ih =>
    rw [lastNeg_cons]
    cases hrest : lastNeg rest with
    | some j =>
      simp only [hrest, List.mem_cons]
      constructor
      · intro h; cases h
      · intro h
        have : ∀ x ∈ rest, ¬ x.slot < 0 := fun x hx => h x (Or.inr hx)
        rw [ih.mpr this] at hrest
        cases hrest
    | none =>
      simp only [hrest]
      by_cases h2 : r.slot < 0
      · rw [if_pos h2]
        simp only [List.mem_cons]
        constructor
        · intro h; cases h
        · intro h; exact absurd h2 (h r (Or.inl rfl))
      · rw [if_neg h2]
        simp only [List.mem_cons]
        constructor
        · intro _ x hx
          rcases hx with rfl | hx
          · exact h2
          · exact (ih.mp hrest) x hx
        · intro _; trivial

theorem lastNeg_spec {l : List DriveRow} {j : Nat} (h : lastNeg l = some j) :
    (∃ r0, l.get? j = some r0 ∧ r0.slot < 0)
      ∧ ∀ k r', j < k → l.get? k = some r' → ¬ r'.slot < 0 := by
  induction l generalizing j with
  | nil => cases h
  | cons r rest ih =>
    rw [lastNeg_cons] at h
    cases hrest : lastNeg rest with
    | some j0 =>
      simp only [hrest] at h
      injection h with h
      subst h
      obtain ⟨⟨r0, hr0, hr0neg⟩, hmax⟩ := ih hrest
      refine ⟨⟨r0, by simpa using hr0, hr0neg⟩, ?_⟩
      intro k r' hk hget
      cases k with
      | zero => omega
      | succ k0 =>
        simp only [List.get?_cons_succ] at hget
        exact hmax k0 r' (by omega) hget
    | none =>
      simp only [hrest] at h
      by_cases h2 : r.slot < 0
      · rw [if_pos h2] at h
        injection h with h
        subst h
        refine ⟨⟨r, rfl, h2⟩, ?_⟩
        intro k r' hk hget
        cases k with
        | zero => omega
        | succ k0 =>
          simp only [List.get?_cons_succ] at hget
          exact lastNeg_none_iff.mp hrest r' (List.get?_mem hget)
      · rw [if_neg h2] at h
        cases h

-- ### setSlotAt structure

theorem setSlotAt_get? (l : List DriveRow) :
    ∀ (j : Nat) (v : Int) (k : Nat),
      (setSlotAt l j v).get? k
        = if k = j then (l.get? j).map (fun r => { r with slot := v })
          else l.get? k := by
  induction l with
  | nil =>
    intro j v k
    simp only [setSlotAt, List.get?_nil, Option.map_none']
    split <;> rfl
  | cons r rest ih =>
    intro j v k
    cases j with
    | zero =>
      cases k with
      | zero => simp [setSlotAt]
      | succ k0 => simp [setSlotAt]
    | succ j0 =>
      cases k with
      | zero => simp [setSlotAt]
      | succ k0 =>
        simp only [setSlotAt, List.get?_cons_succ]
        rw [ih j0 v k0]
        by_cases hkj : k0 = j0
        · rw [if_pos hkj, if_pos (by omega : k0 + 1 = j0 + 1)]
        · rw [if_neg hkj, if_neg (by omega : ¬ k0 + 1 = j0 + 1)]

theorem setSlotAt_length (l : List DriveRow) :
    ∀ (j : Nat) (v : Int), (setSlotAt l j v).length = l.length := by
  induction l with
  | nil => intro j v; rfl
  | cons r rest ih =>
    intro j v
    cases j with
    | zero => rfl
    | succ j0 => simp [setSlotAt, ih]

theorem phase2step_eq (a : List Char) (t : List DriveRow) (s : Int) :
    phase2step a t s
      = if (scanSlot t s).1 = false then
          if (scanSlot t s).2 > -1 then setSlotAt t (scanSlot t s).2.toNat s
          else t ++ [placeholderRow a s]
        else t := rfl

/-- Exhaustive description of one reconciliation iteration: the slot was
already found, or the last ambiguous row gets reassigned, or a placeholder
is appended. -/
theorem phase2step_cases (a : List Char) (t : List DriveRow) (s : Int)
    (hs : 0 ≤ s) :
    (phase2step a t s = t ∧ ∃ r ∈ t, r.slot = s)
      ∨ (∃ j r0, lastNeg t = some j ∧ t.get? j = some r0 ∧ r0.slot < 0
            ∧ phase2step a t s = setSlotAt t j s)
      ∨ ((∀ r ∈ t, ¬ r.slot < 0)
            ∧ phase2step a t s = t ++ [placeholderRow a s]) := by
  cases hfound : (scanSlot t s).1 with
  | true =>
    left
    constructor
    · rw [phase2step_eq, hfound]
      simp
    · rw [scanSlot_fst] at hfound
      obtain ⟨r, hr, hrs⟩ := List.any_eq_true.mp hfound
      exact ⟨r, hr, of_decide_eq_true hrs⟩
  | false =>
    have hsnd := scanSlot_snd hs t
    cases hln : lastNeg t with
    | some j =>
      right; left
      simp only [hln] at hsnd
      obtain ⟨⟨r0, hr0, hr0neg⟩, _⟩ := lastNeg_spec hln
      refine ⟨j, r0, rfl, hr0, hr0neg, ?_⟩
      rw [phase2step_eq, hfound, hsnd]
      have hjpos : (j : Int) > -1 :=
        lt_of_lt_of_le (by norm_num) (Int.natCast_nonneg j)
      rw [if_pos rfl, if_pos hjpos]
      rw [Int.toNat_ofNat]
    | none =>
      right; right
      simp only [hln] at hsnd
      refine ⟨lastNeg_none_iff.mp hln, ?_⟩
      rw [phase2step_eq, hfound, hsnd]
      rw [if_pos rfl, if_neg (by omega : ¬ (-1 : Int) > -1)]

theorem phase2step_preserves (a : List Char) (t : List DriveRow) (s v : Int)
    (hs : 0 ≤ s) (hv : 0 ≤ v) (h : ∃ r ∈ t, r.slot = v) :
    ∃ r ∈ phase2step a t s, r.slot = v := by
  rcases phase2step_cases a t s hs with ⟨heq, _⟩
    | ⟨j, r0, hln, hr0, hr0neg, heq⟩ | ⟨_, heq⟩
  · rw [heq]; exact h
  · rw [heq]
    obtain ⟨r, hr, hrv⟩ := h
    obtain ⟨k, hk⟩ := List.mem_iff_get?.mp hr
    have hkj : k ≠ j := by
      intro he
      subst he
      rw [hk] at hr0
      injection hr0 with he2
      subst he2
      omega
    have hget : (setSlotAt t j s).get? k = some r := by
      rw [setSlotAt_get? t j s k, if_neg hkj]
      exact hk
    exact ⟨r, List.get?_mem hget, hrv⟩
  · rw [heq]
    obtain ⟨r, hr, hrv⟩ := h
    exact ⟨r, List.mem_append_left _ hr, hrv⟩

theorem phase2step_establishes (a : List Char) (t : List DriveRow) (s : Int)
    (hs : 0 ≤ s) : ∃ r ∈ phase2step a t s, r.slot = s := by
  rcases phase2step_cases a t s hs with ⟨heq, hex⟩
    | ⟨j, r0, hln, hr0, hr0neg, heq⟩ | ⟨_, heq⟩
  · rw [heq]; exact hex
  · rw [heq]
    have hget : (setSlotAt t j s).get? j = some { r0 with slot := s } := by
      rw [setSlotAt_get? t j s j, if_pos rfl, hr0]
      rfl
    exact ⟨{ r0 with slot := s }, List.get?_mem hget, rfl⟩
  · rw [heq]
    exact ⟨placeholderRow a s, List.mem_append_right _ (by simp), rfl⟩

theorem phase2_succ (a : List Char) (N : Nat) (temp : List DriveRow) :
    phase2 a (N + 1) temp = phase2step a (phase2 a N temp) (N : Int) := by
  unfold phase2
  rw [List.range_succ, List.foldl_append]
  rfl

theorem phase2_covers (a : List Char) (N : Nat) (temp : List DriveRow) :
    ∀ s : Nat, s < N → ∃ r ∈ phase2 a N temp, r.slot = (s : Int) := by
  induction N with
  | zero => intro s hs; omega
  | succ N ih =>
    intro s hs
    rw [phase2_succ]
    by_cases hsN : s = N
    · subst hsN
      exact phase2step_establishes a _ (s : Int) (Int.natCast_nonneg s)
    · exact phase2step_preserves a _ (N : Int) (s : Int) (Int.natCast_nonneg N)
        (Int.natCast_nonneg s) (ih s (by omega))

theorem length_ge_of_covers {rows : List DriveRow} {N : Nat}
    (h : ∀ s : Nat, s < N → ∃ r ∈ rows, r.slot = (s : Int)) :
    N ≤ rows.length := by
  classical
  let g : Nat → DriveRow := fun s =>
    if hs : s < N then (h s hs).choose else default
  have hg : ∀ s, s < N → g s ∈ rows ∧ (g s).slot = (s : Int) := by
    intro s hs
    have hspec := (h s hs).choose_spec
    simp only [g, dif_pos hs]
    exact hspec
  have hinj : Set.InjOn g (Finset.range N) := by
    intro s1 h1 s2 h2 heq
    simp only [Finset.coe_range, Set.mem_Iio] at h1 h2
    have e1 := (hg s1 h1).2
    have e2 := (hg s2 h2).2
    rw [heq, e2] at e1
    exact_mod_cast e1.symm
  have hmaps : ∀ s ∈ Finset.range N, g s ∈ rows.toFinset := by
    intro s hs
    rw [List.mem_toFinset]
    exact (hg s (Finset.mem_range.mp hs)).1
  have hcard := Finset.card_le_card_of_injOn g hmaps hinj
  rw [Finset.card_range] at hcard
  exact le_trans hcard rows.toFinset_card_le

/-- CLAIM C1 (amended): for every outcome of the per-slot disk queries,
`getDrivesForArray` appends at least N rows for the array, and every slot
value in [0, N) occurs among the appended rows.  (Exactly-N and the
permutation property fail on the code, which its own unit test for mixed
faulty and removed disks documents: seven rows for a six-disk array.) -/
theorem getDrivesForArray_at_least_and_covers (a : List Char) (env : MDEnv)
    (N : Nat) (data : List DriveRow) (hpath : env.path ≠ [])
    (hinfo : env.arrayInfo = some N) :
    ∃ rows, getDrivesForArray a env data = data ++ rows
      ∧ N ≤ rows.length
      ∧ ∀ s : Nat, s < N → ∃ r ∈ rows, r.slot = (s : Int) := by
  refine ⟨phase2 a N (phase1 a env N), ?_, ?_, ?_⟩
  · unfold getDrivesForArray
    rw [if_neg hpath]
    simp only [hinfo]
  · exact length_ge_of_covers (phase2_covers a N (phase1 a env N))
  · exact phase2_covers a N (phase1 a env N)

/-- Witness for the amended C1 on the healthy six-disk array. -/
theorem getDrivesForArray_at_least_and_covers_witness :
    ∃ rows, getDrivesForArray "md0".toList healthyEnv [] = [] ++ rows
      ∧ 6 ≤ rows.length
      ∧ ∀ s : Nat, s < 6 → ∃ r ∈ rows, r.slot = (s : Int) :=
  getDrivesForArray_at_least_and_covers "md0".toList healthyEnv 6 []
    (by decide) rfl

/-- CLAIM C5: after the scan, a logical slot `s` carried by no row is
resolved by reassigning the most recently scanned row whose slot is still
negative (`lastNeg` is exactly the greatest such index, last-seen-wins)
when one exists, and by appending the `{unknown, removed, s}` placeholder
otherwise. -/
theorem phase2step_missing_slot_resolution (a : List Char)
    (temp : List DriveRow) (s : Int) (hs : 0 ≤ s)
    (hnot : ∀ r ∈ temp, r.slot ≠ s) :
    (phase2step a temp s
        = match lastNeg temp with
          | some j => setSlotAt temp j s
          | none => temp ++ [placeholderRow a s])
      ∧ (∀ j, lastNeg temp = some j →
            (∃ r0, temp.get? j = some r0 ∧ r0.slot < 0)
              ∧ ∀ k r2, j < k → temp.get? k = some r2 → ¬ r2.slot < 0)
      ∧ (lastNeg temp = none → ∀ r ∈ temp, ¬ r.slot < 0) := by
  refine ⟨?_, ?_, ?_⟩
  · rcases phase2step_cases a temp s hs with ⟨heq, r, hr, hrs⟩
      | ⟨j, r0, hln, hr0, hr0neg, heq⟩ | ⟨hnone, heq⟩
    · exact absurd hrs (hnot r hr)
    · simp only [hln]
      exact heq
    · simp only [lastNeg_none_iff.mpr hnone]
      exact heq
  · intro j hj
    exact lastNeg_spec hj
  · intro hnone
    exact lastNeg_none_iff.mp hnone

def ambRow : DriveRow :=
  { md_device_name := "md0".toList
    drive_name := "/dev/sda9".toList
    state := "faulty".toList
    slot := -1 }

/-- Witness for C5: a single pending ambiguous row is reassigned slot 0. -/
theorem phase2step_missing_slot_resolution_witness :
    phase2step "md0".toList [ambRow] 0 = setSlotAt [ambRow] 0 0 :=
  (phase2step_missing_slot_resolution "md0".toList [ambRow] 0 (by decide)
      (by decide)).1

theorem foldl_fixed {α β : Type} (f : β → α → β) (l : List α) (b : β)
    (h : ∀ x ∈ l, ∀ acc, f acc x = acc) : l.foldl f b = b := by
  induction l generalizing b with
  | nil => rfl
  | cons x xs ih =>
    rw [List.foldl_cons, h x (List.mem_cons_self x xs)]
    exact ih b (fun y hy acc => h y (List.mem_cons_of_mem x hy) acc)

theorem phase1_empty (a : List Char) (env : MDEnv) (N : Nat)
    (h : ∀ i < MD_SB_DISKS, ∀ d, env.diskInfo i = some d → d.major ≤ 0) :
    phase1 a env N = [] := by
  unfold phase1
  apply foldl_fixed
  intro i hi acc
  have hi2 : i < MD_SB_DISKS := List.mem_range.mp hi
  cases hd : env.diskInfo i with
  | none => simp only [hd]
  | some d =>
    have hm := h i hi2 d hd
    simp only [hd]
    rw [if_neg (by omega)]

theorem phase2_placeholders (a : List Char) (N : Nat) :
    phase2 a N [] = (List.range N).map (fun (s : Nat) => placeholderRow a (s : Int)) := by
  induction N with
  | zero => rfl
  | succ N ih =>
    rw [phase2_succ, ih, List.range_succ, List.map_append]
    rcases phase2step_cases a
        ((List.range N).map (fun (s : Nat) => placeholderRow a (s : Int))) (N : Int)
        (Int.natCast_nonneg N) with ⟨heq, r, hr, hrs⟩
      | ⟨j, r0, hln, hr0, hr0neg, heq⟩ | ⟨_, heq⟩
    · exfalso
      obtain ⟨s, hsrange, rfl⟩ := List.mem_map.mp hr
      have hcast : (s : Int) = (N : Int) := hrs
      have hsN : s = N := by exact_mod_cast hcast
      have := List.mem_range.mp hsrange
      omega
    · exfalso
      have hmem := List.get?_mem hr0
      obtain ⟨s, _, rfl⟩ := List.mem_map.mp hmem
      simp only [placeholderRow] at hr0neg
      omega
    · rw [heq]
      simp

/-- CLAIM C8: when every descriptor query fails or reports no live device
(non-positive major), the output is exactly the N placeholder rows
`{drive_name: unknown, state: removed}` with slots 0 .. N-1, each once. -/
theorem getDrivesForArray_all_removed (a : List Char) (env : MDEnv) (N : Nat)
    (data : List DriveRow) (hpath : env.path ≠ [])
    (hinfo : env.arrayInfo = some N)
    (hdisks : ∀ i < MD_SB_DISKS, ∀ d, env.diskInfo i = some d → d.major ≤ 0) :
    getDrivesForArray a env data
      = data ++ (List.range N).map (fun (s : Nat) => placeholderRow a (s : Int)) := by
  unfold getDrivesForArray
  rw [if_neg hpath]
  simp only [hinfo]
  rw [phase1_empty a env N hdisks, phase2_placeholders]

def allFailEnv : MDEnv :=
  { path := "/dev/md0".toList
    arrayInfo := some 2
    diskInfo := fun _ => none
    devName := fun _ _ => [] }

/-- Witness for C8: two placeholder rows for a two-disk array whose disk
queries all fail. -/
theorem getDrivesForArray_all_removed_witness :
    getDrivesForArray "md0".toList allFailEnv []
      = [] ++ (List.range 2).map
          (fun (s : Nat) => placeholderRow "md0".toList (s : Int)) :=
  getDrivesForArray_all_removed "md0".toList allFailEnv 2 [] (by decide) rfl
    (fun _ _ d h => Option.noConfusion h)

-- ### mdstat parsing (md_tables.cpp:337-472)

/-- One `name[position]` drive token.  The default position 0 is modelled
from the spec: "malformed tokens log a warning and yield position 0 with
the raw name preserved" (the `MDDrive` struct lives in `md_tables.h`,
which is not among the sampled sources). -/
structure MDDrive where
  name : List Char := []
  pos : Int := 0
deriving DecidableEq

/-- One array block of the status report (`MDDevice` in `md_tables.h`,
fields as read and written by `parseMDStat`). -/
structure MDDevice where
  name : List Char := []
  status : List Char := []
  raidLevel : List Char := []
  drives : List MDDrive := []
  usableSize : List Char := []
  healthyDrives : List Char := []
  driveStatuses : List Char := []
  other : List Char := []
  recovery : List Char := []
  resync : List Char := []
  reshape : List Char := []
  checkArray : List Char := []
  bitmap : List Char := []
deriving DecidableEq

/-- The parsed status report (`MDStat` in `md_tables.h`). -/
structure MDStat where
  personalities : List Char := []
  devices : List MDDevice := []
  unused : List Char := []
deriving DecidableEq

/-- C++ `std::string::find(pat)`: first index at which `pat` occurs,
`none` for `npos`. -/
def findSub : List Char → List Char → Option Nat
  | s, pat =>
    if pat.isPrefixOf s then some 0
    else
      match s with
      | [] => none
      | _ :: rest => (findSub rest pat).map (· + 1)

/-- The whitespace class of C `isspace`, used by `std::stoi`. -/
def isSpaceCh (c : Char) : Bool :=
  c = ' ' ∨ c = '\t' ∨ c = '\n' ∨ c = '\x0b' ∨ c = '\x0c' ∨ c = '\r'

def digitVal (c : Char) : Int := (c.toNat : Int) - ('0'.toNat : Int)

/-- C++ `std::stoi`: skips leading whitespace and an optional sign, then
parses a nonempty digit prefix.  `none` models a thrown exception:
`std::invalid_argument` when no digit follows, `std::out_of_range` when
the value leaves the `int` range. -/
def stoi? (s : List Char) : Option Int :=
  let s1 := s.dropWhile isSpaceCh
  let signAndRest : Int × List Char :=
    match s1 with
    | '-' :: r => (-1, r)
    | '+' :: r => (1, r)
    | _ => (1, s1)
  let digits := signAndRest.2.takeWhile (fun c => c.isDigit)
  if digits = [] then none
  else
    let v := signAndRest.1 * digits.foldl (fun acc c => acc * 10 + digitVal c) 0
    if v < -(2 ^ 31) ∨ 2 ^ 31 ≤ v then none else some v

/-- Embeds `parseMDDrive` (md_tables.cpp:337-351): locate `[` and `]`,
`std::stoi` the text between them.  `none` models the exception `std::stoi`
throws on non-numeric bracket content; a missing bracket returns the raw
name with the default position. -/
def parseMDDrive (name : List Char) : Option MDDrive :=
  let d0 : MDDrive := { name := name, pos := 0 }
  match List.findIdx? (· == '[') name, List.findIdx? (· == ']') name with
  | some st, some en =>
    -- name.substr(start + 1, end - start - 1): the count is size_t
    -- arithmetic, so when end < start + 1 it wraps around and the rest of
    -- the string is taken
    let sub := if st + 1 ≤ en then (name.drop (st + 1)).take (en - st - 1)
               else name.drop (st + 1)
    (stoi? sub).map (fun v => { d0 with pos := v })
  | _, _ => some d0

/-- Modelled from the spec: the repository's `split(s, ":", 1)` helper
(osquery core `conversions`, not among the sampled sources).  Spec: "Split
on the first colon: left is array name (trimmed), right is a
whitespace-separated token list"; with no colon present there is a single
piece, which `parseMDStat` guards with `mdline.size() < 2`. -/
def splitFirstColon (s : List Char) : List (List Char) :=
  match List.findIdx? (· == ':') s with
  | none => [s]
  | some i => [s.take i, s.drop (i + 1)]

def splitDelimsGo (delims : List Char) : List Char → List Char → List (List Char)
  | cur, [] => if cur = [] then [] else [cur.reverse]
  | cur, c :: rest =>
    if c ∈ delims then
      if cur = [] then splitDelimsGo delims [] rest
      else cur.reverse :: splitDelimsGo delims [] rest
    else splitDelimsGo delims (c :: cur) rest

/-- Modelled from the spec: the repository's tokenising `split` helper
(osquery core `conversions`, not among the sampled sources).  Spec:
"whitespace-separated token list" / "whitespace-split tokens" — maximal
runs of non-delimiter characters, empty tokens dropped. -/
def splitDelims (delims : List Char) (s : List Char) : List (List Char) :=
  splitDelimsGo delims [] s

/-- Sequencing of `parseMDDrive` over the drive tokens
(md_tables.cpp:394-396); a thrown exception aborts the whole parse. -/
def parseDrives : List (List Char) → Option (List MDDrive)
  | [] => some []
  | t :: rest =>
    match parseMDDrive t with
    | none => none
    | some d => (parseDrives rest).map (fun ds => d :: ds)

/-- The config-line handling (md_tables.cpp:401-416): fewer than four
tokens only logs; otherwise the tokens are trimmed and distributed, middle
tokens accumulating space-prefixed into `other`. -/
def applyConfig (mdd : MDDevice) (cfg : List Char) : MDDevice :=
  let configline := splitDelims [' ', '\t'] cfg
  if configline.length < 4 then mdd
  else
    let cl := trimStrList configline ' '
    { mdd with
      usableSize := cl.getD 0 [] ++ [' '] ++ cl.getD 1 []
      healthyDrives := cl.getD (cl.length - 2) []
      driveStatuses := cl.getD (cl.length - 1) []
      other :=
        if 4 < configline.length then
          ((cl.drop 2).take (cl.length - 4)).foldl
            (fun acc tok => acc ++ (' ' :: tok)) mdd.other
        else mdd.other }

/-- Result of one iteration of the `parseMDStat` line-classification loop:
continue at cursor `n`, or an out-of-bounds `lines[n + 1]` access
(undefined behaviour in the source), or a thrown exception. -/
inductive StepResult where
  | next (n : Nat) (r : MDStat)
  | oobErr (r : MDStat)
  | exnErr (r : MDStat)
deriving DecidableEq

/-- The `while (true)` continuation-line loop (md_tables.cpp:421-457) on
the suffix of lines after the cursor: it reads `lines[n + 1]`
unconditionally (the empty suffix is the out-of-bounds access), consumes
recovery / resync / reshape / check / bitmap lines, and on the first
unrecognized line breaks, pushing the device; the outer loop then
advances the cursor past the block. -/
def contLoopGo (r : MDStat) : Nat → List (List Char) → MDDevice → StepResult
  | _, [], _ => StepResult.oobErr r
  | n, l :: rest, mdd =>
    match findSub l "recovery =".toList with
    | some pos =>
      contLoopGo r (n + 1) rest { mdd with recovery := trimStr (l.drop (pos + 10)) ' ' }
    | none =>
      match findSub l "resync =".toList with
      | some pos =>
        contLoopGo r (n + 1) rest { mdd with resync := trimStr (l.drop (pos + 8)) ' ' }
      | none =>
        match findSub l "reshape =".toList with
        | some pos =>
          contLoopGo r (n + 1) rest { mdd with reshape := trimStr (l.drop (pos + 9)) ' ' }
        | none =>
          match findSub l "check =".toList with
          | some pos =>
            contLoopGo r (n + 1) rest { mdd with checkArray := trimStr (l.drop (pos + 7)) ' ' }
          | none =>
            match findSub l "bitmap:".toList with
            | some pos =>
              contLoopGo r (n + 1) rest { mdd with bitmap := trimStr (l.drop (pos + 7)) ' ' }
            | none => StepResult.next (n + 1) { r with devices := r.devices ++ [mdd] }

/-- The continuation loop viewed with an absolute cursor: the unread
suffix `lines.drop (n + 1)` stands for the `lines[n + 1]` accesses. -/
def contLoop (lines : List (List Char)) (n : Nat) (mdd : MDDevice)
    (r : MDStat) : StepResult :=
  contLoopGo r n (lines.drop (n + 1)) mdd

/-- One iteration of the classification loop body (md_tables.cpp:373-471),
classifying `lines[n]` by its first two characters.  An "md" line whose
colon split yields fewer than two pieces runs `continue` WITHOUT advancing
the cursor (md_tables.cpp:380), faithfully returning `next n`.  An "un"
line shorter than `"unused devices:"` makes `substr(15)` throw
`std::out_of_range`. -/
def mdStep (lines : List (List Char)) (n : Nat) (r : MDStat) : StepResult :=
  let line := lines.getD n []
  if line.take 2 = "md".toList then
    let mdline := splitFirstColon line
    if mdline.length < 2 then StepResult.next n r
    else
      let mdd0 : MDDevice := { name := trimStr (mdline.getD 0 []) ' ' }
      let settings := trimStrList (splitDelims [' '] (mdline.getD 1 [])) ' '
      match
        (if 2 ≤ settings.length then
          (parseDrives (settings.drop 2)).map (fun ds =>
            { mdd0 with
              status := settings.getD 0 []
              raidLevel := settings.getD 1 []
              drives := ds })
        else some mdd0) with
      | none => StepResult.exnErr r
      | some mdd1 =>
        if n + 1 < lines.length then
          contLoop lines (n + 1) (applyConfig mdd1 (lines.getD (n + 1) [])) r
        else StepResult.oobErr r
  else if line.take 2 = "un".toList then
    if line.length < 15 then StepResult.exnErr r
    else StepResult.next (n + 1) { r with unused := line.drop 15 }
  else StepResult.next (n + 1) r

/-- Outcome of a whole parse: normal completion, a thrown exception, an
out-of-bounds vector access, or still looping after `fuel` iterations. -/
inductive ParseOutcome where
  | ok (r : MDStat)
  | exn (r : MDStat)
  | oob (r : MDStat)
  | fuelOut (r : MDStat)
deriving DecidableEq

def parseLoop (lines : List (List Char)) : Nat → Nat → MDStat → ParseOutcome
  | 0, _, r => ParseOutcome.fuelOut r
  | fuel + 1, n, r =>
    if n < lines.length then
      match mdStep lines n r with
      | StepResult.next n2 r2 => parseLoop lines fuel n2 r2
      | StepResult.oobErr r2 => ParseOutcome.oob r2
      | StepResult.exnErr r2 => ParseOutcome.exn r2
    else ParseOutcome.ok r

/-- Embeds `parseMDStat` (md_tables.cpp:353-472): the Personalities line
is consumed when present (its `substr(15)` never throws because the line
was just checked to contain the 15-character pattern), then the cursor
loop classifies the remaining lines.  `fuel` bounds the number of
iterations; `fuelOut` reports a loop still running after that many. -/
def parseMDStat (lines : List (List Char)) (fuel : Nat) : ParseOutcome :=
  if lines.length < 1 then ParseOutcome.ok {}
  else
    let first := lines.getD 0 []
    if (findSub first "Personalities :".toList).isSome then
      parseLoop lines fuel 1 { personalities := first.drop 15 }
    else parseLoop lines fuel 0 {}

/-- CLAIM C3 (code bug): a line starting "md" that cannot be split on a
colon into two pieces hits the `continue` at md_tables.cpp:380, which
skips the `n += 1` at md_tables.cpp:470: the step leaves the cursor at 0
and, for every fuel bound, the classification loop is still running —
the scan is not bounded by the number of lines. -/
theorem parseMDStat_no_colon_never_terminates :
    mdStep ["mdfoo".toList] 0 {} = StepResult.next 0 {}
      ∧ ∀ fuel : Nat,
          parseMDStat ["mdfoo".toList] fuel = ParseOutcome.fuelOut {} := by
  constructor
  · rfl
  · have key : ∀ fuel : Nat,
        parseLoop ["mdfoo".toList] fuel 0 {} = ParseOutcome.fuelOut {} := by
      intro fuel
      induction fuel with
      | zero => rfl
      | succ f ih => exact ih
    intro fuel
    exact key fuel

def c2Lines : List (List Char) :=
  ["Personalities : [raid1]".toList,
   "md0 : active raid1 sda[x]".toList,
   "100 blocks [2/2] [UU]".toList,
   "unused devices: <none>".toList]

/-- CLAIM C2 (code bug): `parseMDStat` can raise.  On the drive token
`sda[x]`, whose bracket content is not numeric, `std::stoi` throws
`std::invalid_argument` (md_tables.cpp:348); on a line starting "un" that
is shorter than "unused devices:", `substr(15)` throws
`std::out_of_range` (md_tables.cpp:463).  Only a token with a missing
bracket takes the logged-warning path with position 0. -/
theorem parseMDStat_can_raise :
    parseMDStat c2Lines 10
        = ParseOutcome.exn { personalities := " [raid1]".toList }
      ∧ parseMDStat ["Personalities : x".toList, "unused".toList] 10
        = ParseOutcome.exn { personalities := " x".toList }
      ∧ parseMDDrive "sda".toList = some { name := "sda".toList, pos := 0 } := by
  refine ⟨?_, ?_, ?_⟩ <;> rfl

def c9Fixture : List (List Char) :=
  ["Personalities : [raid1] [raid6]".toList,
   "md0 : active raid6 sdd1[3] sdc1[2] sdb1[1]".toList,
   "1250241792 blocks level 6, 64k chunk, algorithm 2 [4/3] [_UUU]".toList,
   "[=>...................]  recovery = 12.3% (100/800) finish=1.2min speed=900K/sec".toList]

def c9Device : MDDevice :=
  { name := "md0".toList
    status := "active".toList
    raidLevel := "raid6".toList
    drives := [{ name := "sdd1[3]".toList, pos := 3 },
               { name := "sdc1[2]".toList, pos := 2 },
               { name := "sdb1[1]".toList, pos := 1 }]
    usableSize := "1250241792 blocks".toList
    healthyDrives := "[4/3]".toList
    driveStatuses := "[_UUU]".toList
    other := " level 6, 64k chunk, algorithm 2".toList
    recovery := "12.3% (100/800) finish=1.2min speed=900K/sec".toList }

/-- CLAIM C9 (code bug): on the exact four-line fixture of the claim the
continuation-line loop reads `lines[4]`, one past the end of the vector
(md_tables.cpp:423 with n = 3) — undefined behaviour — and the array
record is never pushed into the result.  With a trailing
"unused devices:" line added, the parse completes and reproduces every
field of the claim exactly. -/
theorem parseMDStat_fixture_reads_past_end :
    parseMDStat c9Fixture 10
        = ParseOutcome.oob { personalities := " [raid1] [raid6]".toList }
      ∧ parseMDStat (c9Fixture ++ ["unused devices: <none>".toList]) 10
        = ParseOutcome.ok
            { personalities := " [raid1] [raid6]".toList
              devices := [c9Device]
              unused := " <none>".toList } := by
  constructor
  · rfl
  · rfl

end MDTables
